import Mathlib

/-!
Shallow embedding of the ringclock_esp8266 LED-ring rendering core
(`ledrings.cpp` / `ledrings.h` and the clock-face functions in
`ringclockfunctions.ino`), together with theorems checking the
natural-language specification against it.

Modelling conventions:
* C unsigned integers are modelled as `ℕ`; wherever a narrowing
  conversion can actually occur on the values reachable in a claim, the
  conversion (`% 2^8`, `% 2^16`, `% 2^32`) is written out explicitly.
* C `int` expressions that can go negative (the `hour - 1` index, the
  offset-corrected pixel index) are modelled as `ℤ`, with C's
  truncated `%` operator modelled by `cMod` and the implementation-level
  conversion to `uint16_t` modelled by `Int.emod 65536`.
* C `float` arithmetic is modelled as exact rational arithmetic on `ℚ`;
  the float→integer conversions of the source (which truncate toward
  zero) are modelled by `truncQ`.  For the 8-bit operands and the
  factors appearing in the claims the float computations of the source
  are exact or round within margins that do not affect the stated
  properties.
* `constants.h` is not part of the sources; the ring lengths below are
  modelled from the spec (outer ring 91 pixels, inner ring 12 pixels).
-/

/-- Modelled from the spec: `constants.h` is missing from the sources; the
spec fixes the outer ring at 91 pixels. -/
def OUTER_RING_LED_COUNT : ℕ := 91

/-- Modelled from the spec: `constants.h` is missing from the sources; the
spec fixes the inner ring at 12 pixels. -/
def INNER_RING_LED_COUNT : ℕ := 12

/-- Default current limit in mA, from `#define DEFAULT_CURRENT_LIMIT 9999`
in `ledrings.h`. -/
def DEFAULT_CURRENT_LIMIT : ℕ := 9999

/-- Truncation toward zero of a rational number: the conversion C performs
when a `float` value is assigned to an integer variable. -/
def truncQ (q : ℚ) : ℤ := if 0 ≤ q then ⌊q⌋ else ⌈q⌉

/-- C's `%` operator on `int` operands (truncated division remainder).
For a nonnegative left operand and positive right operand it agrees with
the mathematical modulus; for a negative left operand the result is the
negation of the modulus of the absolute value. -/
def cMod (a n : ℤ) : ℤ := if 0 ≤ a then a % n else -((-a) % n)

/-- Pointwise update of a fixed-length buffer (a C array store
`buf[i] = c`). -/
def upd {n : ℕ} (f : Fin n → ℕ) (i : Fin n) (c : ℕ) : Fin n → ℕ :=
  fun j => if j = i then c else f j

/-- `LEDRings::Color24bit`: `((uint32_t)r << 16) | ((uint32_t)g << 8) | b`.
The parameters are `uint8_t` in the source, so each argument is reduced
`% 256` at the call boundary. -/
def Color24bit (r g b : ℕ) : ℕ :=
  ((r % 256) <<< 16) ||| ((g % 256) <<< 8) ||| (b % 256)

/-- Channel extraction `(c >> k) & 0xFF` as it appears throughout
`ledrings.cpp` (with `k` one of 16, 8, 0). -/
def chan (k c : ℕ) : ℕ := (c >>> k) &&& 255

/-- One channel of `LEDRings::interpolateColor24bit`:
`x1 + (x2 - x1) * factor`, the subtraction performed on promoted `int`s,
the multiplication and addition on `float` (modelled exactly on `ℚ`),
and the result truncated into a `uint8_t`. -/
def interpChannel (x1 x2 : ℕ) (factor : ℚ) : ℕ :=
  (truncQ ((x1 : ℚ) + ((x2 : ℚ) - (x1 : ℚ)) * factor)).toNat % 256

/-- `LEDRings::interpolateColor24bit`: the channels are extracted by
shift/mask, each channel interpolated by `interpChannel`, and the result
repacked. -/
def interpolateColor24bit (color1 color2 : ℕ) (factor : ℚ) : ℕ :=
  Color24bit (interpChannel (chan 16 color1) (chan 16 color2) factor)
    (interpChannel (chan 8 color1) (chan 8 color2) factor)
    (interpChannel (chan 0 color1) (chan 0 color2) factor)

/-- `LEDRings::calcEstimatedLEDCurrent`: linear current estimate
`(20*r + 20*g + 20*b) / 255 * brightness / 255` on `uint32_t`
(the intermediate values are bounded by `20*765 = 15300`, far below
`2^32`, so the `uint32_t` wrap cannot occur and is omitted); the
`uint16_t` return conversion is the final `% 65536`. -/
def calcEstimatedLEDCurrent (color brightness : ℕ) : ℕ :=
  let red := chan 16 color
  let green := chan 8 color
  let blue := chan 0 color
  ((20 * red + 20 * green + 20 * blue) / 255 * brightness / 255) % 65536

/-- State of the `LEDRings` object together with the observable state of
its collaborators: the two hardware pixel buffers and brightness
registers of the NeoPixel driver objects, and the logger's output. -/
structure LEDRings where
  currentLimit : ℕ
  brightnessOuterRing : ℕ
  brightnessInnerRing : ℕ
  offsetOuterRing : ℤ
  offsetInnerRing : ℤ
  targetOuterring : Fin OUTER_RING_LED_COUNT → ℕ
  currentOuterRing : Fin OUTER_RING_LED_COUNT → ℕ
  targetInnerRing : Fin INNER_RING_LED_COUNT → ℕ
  currentInnerRing : Fin INNER_RING_LED_COUNT → ℕ
  hwOuter : Fin OUTER_RING_LED_COUNT → ℕ
  hwInner : Fin INNER_RING_LED_COUNT → ℕ
  hwBrightnessOuter : ℕ
  hwBrightnessInner : ℕ
  log : List String

/-- `LEDRings::setOffsets`. -/
def setOffsets (offsetOuterRing offsetInnerRing : ℤ) (s : LEDRings) : LEDRings :=
  { s with offsetOuterRing := offsetOuterRing, offsetInnerRing := offsetInnerRing }

/-- `LEDRings::setCurrentLimit`. -/
def setCurrentLimit (currentLimit : ℕ) (s : LEDRings) : LEDRings :=
  { s with currentLimit := currentLimit % 65536 }

/-- `LEDRings::getBrightnessOuterRing`. -/
def getBrightnessOuterRing (s : LEDRings) : ℕ := s.brightnessOuterRing

/-- `LEDRings::getBrightnessInnerRing`. -/
def getBrightnessInnerRing (s : LEDRings) : ℕ := s.brightnessInnerRing

/-- `LEDRings::flushOuterRing`: the loop sets every entry of
`targetOuterring` to 0. -/
def flushOuterRing (s : LEDRings) : LEDRings :=
  { s with targetOuterring := fun _ => 0 }

/-- `LEDRings::flushInnerRing`: the loop sets every entry of
`targetInnerRing` to 0. -/
def flushInnerRing (s : LEDRings) : LEDRings :=
  { s with targetInnerRing := fun _ => 0 }

/-- `LEDRings::setPixelOuterRing`: bounds check against the ring length,
logging an error and leaving the buffer untouched when out of range;
the `uint32_t` color parameter is reduced `% 2^32` at the call
boundary. -/
def setPixelOuterRing (pixel color : ℕ) (s : LEDRings) : LEDRings :=
  if h : OUTER_RING_LED_COUNT ≤ pixel then
    { s with log := s.log ++ ["ERROR: pixel out of range"] }
  else
    { s with targetOuterring := upd s.targetOuterring ⟨pixel, Nat.lt_of_not_le h⟩ (color % 4294967296) }

/-- `LEDRings::setPixelInnerRing`: as `setPixelOuterRing`, for the inner
ring. -/
def setPixelInnerRing (pixel color : ℕ) (s : LEDRings) : LEDRings :=
  if h : INNER_RING_LED_COUNT ≤ pixel then
    { s with log := s.log ++ ["ERROR: pixel out of range"] }
  else
    { s with targetInnerRing := upd s.targetInnerRing ⟨pixel, Nat.lt_of_not_le h⟩ (color % 4294967296) }

/-- Modelled from the spec: the hardware driver collaborator's
`setPixel(physicalIndex, color)` (the `Adafruit_NeoPixel::setPixelColor`
call; the library is external to the repository).  The driver takes a
`uint16_t` index — the C `int` argument is converted `mod 2^16` — and
ignores writes whose index is not below the ring length. -/
def setPixelColorHW {n : ℕ} (hw : Fin n → ℕ) (idx : ℤ) (c : ℕ) : Fin n → ℕ :=
  let u : ℕ := (idx % 65536).toNat
  if h : u < n then upd hw ⟨u, h⟩ c else hw

/-- Hardware writes performed by one ring's loop in `LEDRings::drawOnRings`:
for each logical index `i` the corrected physical index
`(length + i + offset) % length` (C `int` arithmetic) receives the new
color. -/
def emitRing {n : ℕ} (hw : Fin n → ℕ) (offset : ℤ) (cols : Fin n → ℕ) :
    Fin n → ℕ :=
  (List.finRange n).foldl
    (fun acc i => setPixelColorHW acc (cMod ((n : ℤ) + (i.val : ℤ) + offset) (n : ℤ)) (cols i))
    hw

/-- Current accumulation performed by one ring's loop in
`LEDRings::drawOnRings`: a `uint16_t` sum of the per-pixel estimates
(each `+=` wraps `mod 2^16`). -/
def totalCurrentRing {n : ℕ} (cols : Fin n → ℕ) (brightness : ℕ) : ℕ :=
  (List.finRange n).foldl
    (fun acc i => (acc + calcEstimatedLEDCurrent (cols i) brightness) % 65536)
    0

/-- Post-interpolation colors of the outer ring in `LEDRings::drawOnRings`:
`newColor = interpolateColor24bit(currentOuterRing[i], targetOuterring[i], factor)`. -/
def newColorsOuter (factor : ℚ) (s : LEDRings) : Fin OUTER_RING_LED_COUNT → ℕ :=
  fun i => interpolateColor24bit (s.currentOuterRing i) (s.targetOuterring i) factor

/-- Post-interpolation colors of the inner ring in `LEDRings::drawOnRings`. -/
def newColorsInner (factor : ℚ) (s : LEDRings) : Fin INNER_RING_LED_COUNT → ℕ :=
  fun i => interpolateColor24bit (s.currentInnerRing i) (s.targetInnerRing i) factor

/-- Total estimated current summed over both rings in
`LEDRings::drawOnRings` (`uint16_t totalCurrent = totalCurrentOuterRing +
totalCurrentInnerRing`, the addition wrapping `mod 2^16`). -/
def totalCurrentAfter (factor : ℚ) (s : LEDRings) : ℕ :=
  (totalCurrentRing (newColorsOuter factor s) s.brightnessOuterRing
    + totalCurrentRing (newColorsInner factor s) s.brightnessInnerRing) % 65536

/-- `LEDRings::drawOnRings`.  The per-iteration effects of each ring's
loop (hardware pixel write, `current` buffer store, current-estimate
accumulation) are independent across iterations and are modelled as the
three folds `emitRing`, `newColors*` and `totalCurrentRing`.  The unused
locals `currentLimitOuterRing` / `currentLimitInnerRing` of the source
are omitted.  After the loops, if `totalCurrent > currentLimit` the
brightness handed to each driver is
`brightness * float(currentLimit) / float(totalCurrent)` truncated into
a `uint8_t`, otherwise the stored brightness. -/
def drawOnRings (factor : ℚ) (s : LEDRings) : LEDRings :=
  let newO := newColorsOuter factor s
  let newI := newColorsInner factor s
  let totalCurrent := totalCurrentAfter factor s
  let newBrightnessOR :=
    if s.currentLimit < totalCurrent then
      (truncQ (((s.brightnessOuterRing : ℚ) * (s.currentLimit : ℚ)) / (totalCurrent : ℚ))).toNat % 256
    else s.brightnessOuterRing
  let newBrightnessIR :=
    if s.currentLimit < totalCurrent then
      (truncQ (((s.brightnessInnerRing : ℚ) * (s.currentLimit : ℚ)) / (totalCurrent : ℚ))).toNat % 256
    else s.brightnessInnerRing
  { s with
    currentOuterRing := newO
    currentInnerRing := newI
    hwOuter := emitRing s.hwOuter s.offsetOuterRing newO
    hwInner := emitRing s.hwInner s.offsetInnerRing newI
    hwBrightnessOuter := newBrightnessOR
    hwBrightnessInner := newBrightnessIR }

/-- `LEDRings::drawOnRingsInstant`: `drawOnRings(1.0)`. -/
def drawOnRingsInstant (s : LEDRings) : LEDRings := drawOnRings 1 s

/-- `LEDRings::drawOnRingsSmooth`: `drawOnRings(factor)`. -/
def drawOnRingsSmooth (factor : ℚ) (s : LEDRings) : LEDRings := drawOnRings factor s

/-- Index passed to `setPixelInnerRing` by `showHour`: after the 24h→12h
reduction, `hour - 1` is computed on promoted `int`s (so `hour == 0`
yields `-1`) and converted to the `uint16_t` parameter. -/
def showHourIndex (hour : ℕ) : ℕ :=
  (((((if 12 < hour then hour - 12 else hour) : ℕ) : ℤ) - 1) % 65536).toNat

/-- `showHour` from `ringclockfunctions.ino`: flush the inner ring, reduce
the hour to a 12-hour value, set the single hour pixel. -/
def showHour (hour color : ℕ) (s : LEDRings) : LEDRings :=
  setPixelInnerRing (showHourIndex hour) color (flushInnerRing s)

/-- Seconds progress in `showMinutes`:
`(float)timeSinceLastMinuteChange / (float)MILLIS_PER_MINUTE`. -/
def progressSeconds (t : ℕ) : ℚ := (t : ℚ) / 60000

/-- `int activePixelSeconds = (int)(progressSeconds * OUTER_RING_LED_COUNT)`. -/
def activePixelSeconds (t : ℕ) : ℤ :=
  truncQ (progressSeconds t * (OUTER_RING_LED_COUNT : ℚ))

/-- `float pixelProgressSeconds = progressSeconds * OUTER_RING_LED_COUNT - activePixelSeconds`. -/
def pixelProgressSeconds (t : ℕ) : ℚ :=
  progressSeconds t * (OUTER_RING_LED_COUNT : ℚ) - (activePixelSeconds t : ℚ)

/-- `float progressMinutes = ((float)minutes + progressSeconds) / 60.0`. -/
def progressMinutes (minutes t : ℕ) : ℚ :=
  ((minutes : ℚ) + progressSeconds t) / 60

/-- `int activePixelMinutes = (int)(progressMinutes * OUTER_RING_LED_COUNT)`. -/
def activePixelMinutes (minutes t : ℕ) : ℤ :=
  truncQ (progressMinutes minutes t * (OUTER_RING_LED_COUNT : ℚ))

/-- `float pixelProgressMinutes = progressMinutes * OUTER_RING_LED_COUNT - activePixelMinutes`. -/
def pixelProgressMinutes (minutes t : ℕ) : ℚ :=
  progressMinutes minutes t * (OUTER_RING_LED_COUNT : ℚ)
    - (activePixelMinutes minutes t : ℚ)

/-- Loop body of `showMinutes`: the color written to logical index `i`
(the seconds comet tail and head are checked first and so take priority
over the minute arc). -/
def showMinutesPixel (minutes t : ℕ) (colorMinutes colorSeconds : ℕ) (i : ℤ) : ℕ :=
  let black := Color24bit 0 0 0
  if i = activePixelSeconds t - 1 then
    interpolateColor24bit black colorSeconds (1 - pixelProgressSeconds t)
  else if i = activePixelSeconds t then
    interpolateColor24bit black colorSeconds (pixelProgressSeconds t)
  else if i < activePixelMinutes minutes t then
    colorMinutes
  else if i = activePixelMinutes minutes t then
    interpolateColor24bit black colorMinutes (pixelProgressMinutes minutes t)
  else
    black

/-- `showMinutes` from `ringclockfunctions.ino`.  The static
minute-change bookkeeping is parameterized away: `t` is the elapsed
milliseconds since the last observed minute change
(`timeSinceLastMinuteChange`).  The function flushes the outer ring and
then runs the loop writing `showMinutesPixel` at every logical index. -/
def showMinutes (minutes t : ℕ) (colorMinutes colorSeconds : ℕ) (s : LEDRings) : LEDRings :=
  (List.finRange OUTER_RING_LED_COUNT).foldl
    (fun st (i : Fin OUTER_RING_LED_COUNT) =>
      setPixelOuterRing i.val (showMinutesPixel minutes t colorMinutes colorSeconds (i.val : ℤ)) st)
    (flushOuterRing s)

/-- State after the `LEDRings` constructor and the `setup()` calls
`setCurrentLimit` / `setOffsets(-5, 0)`: current limit 9999 (the default
`CURRENT_LIMIT_LED` is not in the sources, so the constructor default is
kept), both brightnesses 255, all buffers zeroed. -/
def initState : LEDRings :=
  { currentLimit := DEFAULT_CURRENT_LIMIT
    brightnessOuterRing := 255
    brightnessInnerRing := 255
    offsetOuterRing := -5
    offsetInnerRing := 0
    targetOuterring := fun _ => 0
    currentOuterRing := fun _ => 0
    targetInnerRing := fun _ => 0
    currentInnerRing := fun _ => 0
    hwOuter := fun _ => 0
    hwInner := fun _ => 0
    hwBrightnessOuter := 255
    hwBrightnessInner := 255
    log := [] }

/-! Arithmetic facts about packing, channel extraction and truncation. -/

theorem or_eq_add {k b : ℕ} (a : ℕ) (hb : b < 2 ^ k) : a * 2 ^ k ||| b = a * 2 ^ k + b := by
  rw [mul_comm a (2 ^ k)]
  exact (Nat.mul_add_lt_is_or hb a).symm

theorem chan_eq (k c : ℕ) : chan k c = c / 2 ^ k % 256 := by
  rw [chan, Nat.shiftRight_eq_div_pow]
  have h : (255 : ℕ) = 2 ^ 8 - 1 := by norm_num
  rw [h, Nat.and_pow_two_sub_one_eq_mod]

theorem chan_le (k c : ℕ) : chan k c ≤ 255 := by
  rw [chan_eq]; omega

theorem Color24bit_arith (r g b : ℕ) :
    Color24bit r g b = r % 256 * 65536 + g % 256 * 256 + b % 256 := by
  rw [Color24bit, Nat.shiftLeft_eq, Nat.shiftLeft_eq]
  rw [or_eq_add (r % 256) (show g % 256 * 2 ^ 8 < 2 ^ 16 by omega)]
  rw [show r % 256 * 2 ^ 16 + g % 256 * 2 ^ 8 = (r % 256 * 2 ^ 8 + g % 256) * 2 ^ 8 from by ring]
  rw [or_eq_add _ (show b % 256 < 2 ^ 8 by omega)]
  ring

theorem Color24bit_lt (r g b : ℕ) : Color24bit r g b < 16777216 := by
  rw [Color24bit_arith]; omega

theorem chan_16_pack (r g b : ℕ) : chan 16 (Color24bit r g b) = r % 256 := by
  rw [chan_eq, Color24bit_arith]; omega

theorem chan_8_pack (r g b : ℕ) : chan 8 (Color24bit r g b) = g % 256 := by
  rw [chan_eq, Color24bit_arith]; omega

theorem chan_0_pack (r g b : ℕ) : chan 0 (Color24bit r g b) = b % 256 := by
  rw [chan_eq, Color24bit_arith]; omega

theorem pack_chan {c : ℕ} (h : c < 16777216) :
    Color24bit (chan 16 c) (chan 8 c) (chan 0 c) = c := by
  rw [Color24bit_arith, chan_eq, chan_eq, chan_eq]; omega

theorem truncQ_of_nonneg {q : ℚ} (h : 0 ≤ q) : truncQ q = ⌊q⌋ := by
  rw [truncQ, if_pos h]

theorem truncQ_natCast (n : ℕ) : truncQ (n : ℚ) = n := by
  rw [truncQ_of_nonneg (by positivity)]
  exact Int.floor_natCast n

theorem interpChannel_le (x1 x2 : ℕ) (f : ℚ) : interpChannel x1 x2 f ≤ 255 := by
  rw [interpChannel]; omega

theorem chan_16_interpolate (c1 c2 : ℕ) (f : ℚ) :
    chan 16 (interpolateColor24bit c1 c2 f) = interpChannel (chan 16 c1) (chan 16 c2) f := by
  rw [interpolateColor24bit, chan_16_pack]
  have := interpChannel_le (chan 16 c1) (chan 16 c2) f
  omega

theorem chan_8_interpolate (c1 c2 : ℕ) (f : ℚ) :
    chan 8 (interpolateColor24bit c1 c2 f) = interpChannel (chan 8 c1) (chan 8 c2) f := by
  rw [interpolateColor24bit, chan_8_pack]
  have := interpChannel_le (chan 8 c1) (chan 8 c2) f
  omega

theorem chan_0_interpolate (c1 c2 : ℕ) (f : ℚ) :
    chan 0 (interpolateColor24bit c1 c2 f) = interpChannel (chan 0 c1) (chan 0 c2) f := by
  rw [interpolateColor24bit, chan_0_pack]
  have := interpChannel_le (chan 0 c1) (chan 0 c2) f
  omega

theorem interpChannel_factor_one {x1 x2 : ℕ} (h2 : x2 ≤ 255) : interpChannel x1 x2 1 = x2 := by
  rw [interpChannel]
  have h : (x1 : ℚ) + ((x2 : ℚ) - (x1 : ℚ)) * 1 = (x2 : ℚ) := by ring
  rw [h, truncQ_natCast]
  omega

theorem interpolate_factor_one {c1 c2 : ℕ} (h2 : c2 < 16777216) :
    interpolateColor24bit c1 c2 1 = c2 := by
  rw [interpolateColor24bit, interpChannel_factor_one (chan_le 16 c2),
    interpChannel_factor_one (chan_le 8 c2), interpChannel_factor_one (chan_le 0 c2)]
  exact pack_chan h2

theorem interpChannel_between {x1 x2 : ℕ} (h1 : x1 ≤ 255) (h2 : x2 ≤ 255) {f : ℚ}
    (hf0 : 0 < f) (hf1 : f ≤ 1) :
    (min x1 x2 ≤ interpChannel x1 x2 f ∧ interpChannel x1 x2 f ≤ max x1 x2) ∧
    Nat.dist (interpChannel x1 x2 f) x2 ≤ Nat.dist x1 x2 ∧
    (1 ≤ (Nat.dist x1 x2 : ℚ) * f → Nat.dist (interpChannel x1 x2 f) x2 < Nat.dist x1 x2) := by
  rw [interpChannel]
  set v : ℚ := (x1 : ℚ) + ((x2 : ℚ) - (x1 : ℚ)) * f with hv
  rcases le_or_lt x1 x2 with hle | hlt
  · -- upward (or constant) interpolation
    have hd : (0 : ℚ) ≤ (x2 : ℚ) - (x1 : ℚ) := by
      have := (Nat.cast_le (α := ℚ)).mpr hle
      linarith
    have hdf0 : (0 : ℚ) ≤ ((x2 : ℚ) - (x1 : ℚ)) * f := mul_nonneg hd hf0.le
    have hdf1 : ((x2 : ℚ) - (x1 : ℚ)) * f ≤ (x2 : ℚ) - (x1 : ℚ) := by nlinarith
    have hv0 : (0 : ℚ) ≤ v := by
      have := Nat.cast_nonneg (α := ℚ) x1
      linarith
    rw [truncQ_of_nonneg hv0]
    have hfl1 : (x1 : ℤ) ≤ ⌊v⌋ := Int.le_floor.mpr (by push_cast; linarith)
    have hfl2 : ⌊v⌋ ≤ (x2 : ℤ) := by
      have hmono : ⌊v⌋ ≤ ⌊(x2 : ℚ)⌋ := Int.floor_mono (by linarith)
      rwa [Int.floor_natCast] at hmono
    have hm1 : x1 ≤ ⌊v⌋.toNat % 256 := by omega
    have hm2 : ⌊v⌋.toNat % 256 ≤ x2 := by omega
    refine ⟨⟨le_trans (min_le_left _ _) hm1, le_trans hm2 (le_max_right _ _)⟩, ?_, ?_⟩
    · rw [Nat.dist_eq_sub_of_le hm2, Nat.dist_eq_sub_of_le hle]
      omega
    · intro hstrict
      have hdistc : (Nat.dist x1 x2 : ℚ) = (x2 : ℚ) - (x1 : ℚ) := by
        rw [Nat.dist_eq_sub_of_le hle]
        push_cast [hle]
        ring
      rw [hdistc] at hstrict
      have hx12 : (1 : ℚ) ≤ (x2 : ℚ) - (x1 : ℚ) := le_trans hstrict hdf1
      have hfl3 : (x1 : ℤ) + 1 ≤ ⌊v⌋ := by
        refine Int.le_floor.mpr ?_
        push_cast
        linarith
      rw [Nat.dist_eq_sub_of_le hm2, Nat.dist_eq_sub_of_le hle]
      omega
  · -- downward interpolation: always strictly decreasing
    have hd : (x2 : ℚ) - (x1 : ℚ) < 0 := by
      have := (Nat.cast_lt (α := ℚ)).mpr hlt
      linarith
    have hdf0 : ((x2 : ℚ) - (x1 : ℚ)) * f < 0 := mul_neg_of_neg_of_pos hd hf0
    have hdfge : (x2 : ℚ) - (x1 : ℚ) ≤ ((x2 : ℚ) - (x1 : ℚ)) * f := by nlinarith
    have hv0 : (0 : ℚ) ≤ v := by
      have := Nat.cast_nonneg (α := ℚ) x2
      linarith
    rw [truncQ_of_nonneg hv0]
    have hfl1 : (x2 : ℤ) ≤ ⌊v⌋ := Int.le_floor.mpr (by push_cast; linarith)
    have hfl2 : ⌊v⌋ < (x1 : ℤ) := Int.floor_lt.mpr (by push_cast; linarith)
    have hm1 : x2 ≤ ⌊v⌋.toNat % 256 := by omega
    have hm2 : ⌊v⌋.toNat % 256 < x1 := by omega
    refine ⟨⟨le_trans (min_le_right _ _) hm1, le_trans hm2.le (le_max_left _ _)⟩, ?_, fun _ => ?_⟩
    · rw [Nat.dist_eq_sub_of_le_right hm1, Nat.dist_eq_sub_of_le_right hlt.le]
      omega
    · rw [Nat.dist_eq_sub_of_le_right hm1, Nat.dist_eq_sub_of_le_right hlt.le]
      omega

theorem setPixelColorHW_apply {n : ℕ} (hw : Fin n → ℕ) (idx : ℤ) (c : ℕ) (p : Fin n) :
    setPixelColorHW hw idx c p = if (idx % 65536).toNat = (p : ℕ) then c else hw p := by
  rw [setPixelColorHW]
  split
  · rename_i h
    simp only [upd, Fin.ext_iff]
    by_cases hp : (p : ℕ) = (idx % 65536).toNat
    · rw [if_pos hp, if_pos hp.symm]
    · rw [if_neg hp, if_neg (fun hc => hp hc.symm)]
  · rename_i h
    rw [if_neg (fun hc => h (lt_of_eq_of_lt hc p.isLt))]

theorem emitRing_body_key {n : ℕ} (offset : ℤ) (hoff : -(n : ℤ) ≤ offset)
    (hn : n ≤ 65536) (j : Fin n) :
    (cMod ((n : ℤ) + (j.val : ℤ) + offset) (n : ℤ) % 65536).toNat
      = (((j.val : ℤ) + offset) % (n : ℤ)).toNat := by
  have hnpos : (0 : ℤ) < (n : ℤ) := by
    have := j.isLt
    exact_mod_cast Nat.pos_of_ne_zero (by omega)
  have ha : (0 : ℤ) ≤ (n : ℤ) + (j.val : ℤ) + offset := by
    have := j.isLt
    omega
  have h1 : cMod ((n : ℤ) + (j.val : ℤ) + offset) (n : ℤ)
      = ((j.val : ℤ) + offset) % (n : ℤ) := by
    rw [cMod, if_pos ha]
    have : (n : ℤ) + (j.val : ℤ) + offset = (j.val : ℤ) + offset + (n : ℤ) * 1 := by ring
    rw [this, Int.add_mul_emod_self_left]
  rw [h1]
  have hr0 : (0 : ℤ) ≤ ((j.val : ℤ) + offset) % (n : ℤ) := Int.emod_nonneg _ (by omega)
  have hrn : ((j.val : ℤ) + offset) % (n : ℤ) < (n : ℤ) := Int.emod_lt_of_pos _ hnpos
  rw [Int.emod_eq_of_lt hr0 (by omega)]

theorem emitRing_fold_ne {n : ℕ} (offset : ℤ) (cols : Fin n → ℕ) (p : Fin n)
    (l : List (Fin n)) :
    ∀ (acc : Fin n → ℕ),
      (∀ j ∈ l, (cMod ((n : ℤ) + (j.val : ℤ) + offset) (n : ℤ) % 65536).toNat ≠ (p : ℕ)) →
      (l.foldl (fun acc i => setPixelColorHW acc (cMod ((n : ℤ) + (i.val : ℤ) + offset) (n : ℤ)) (cols i)) acc) p = acc p := by
  induction l with
  | nil => intro acc _; rfl
  | cons j l ih =>
      intro acc h
      rw [List.foldl_cons, ih _ (fun a ha => h a (List.mem_cons_of_mem _ ha)),
        setPixelColorHW_apply, if_neg (h j (List.mem_cons_self _ _))]

theorem emitRing_fold_mem {n : ℕ} (offset : ℤ) (cols : Fin n → ℕ) (i : Fin n) (p : Fin n)
    (hkey : ∀ j : Fin n, ((cMod ((n : ℤ) + (j.val : ℤ) + offset) (n : ℤ) % 65536).toNat = (p : ℕ)) ↔ j = i)
    (l : List (Fin n)) :
    ∀ (acc : Fin n → ℕ), i ∈ l → l.Nodup →
      (l.foldl (fun acc i => setPixelColorHW acc (cMod ((n : ℤ) + (i.val : ℤ) + offset) (n : ℤ)) (cols i)) acc) p = cols i := by
  induction l with
  | nil => intro acc h _; exact absurd h (List.not_mem_nil _)
  | cons j l ih =>
      intro acc hmem hnd
      rcases List.mem_cons.mp hmem with rfl | hmem'
      · rw [List.foldl_cons]
        have hnotin : i ∉ l := (List.nodup_cons.mp hnd).1
        have htail : ∀ a ∈ l, (cMod ((n : ℤ) + (a.val : ℤ) + offset) (n : ℤ) % 65536).toNat ≠ (p : ℕ) := by
          intro a ha hk
          exact hnotin ((hkey a).mp hk ▸ ha)
        rw [emitRing_fold_ne offset cols p l _ htail, setPixelColorHW_apply,
          if_pos ((hkey i).mpr rfl)]
      · exact ih _ hmem' (List.nodup_cons.mp hnd).2

theorem emitRing_apply {n : ℕ} (hw : Fin n → ℕ) (offset : ℤ) (cols : Fin n → ℕ)
    (hoff : -(n : ℤ) ≤ offset) (hn : n ≤ 65536) (i p : Fin n)
    (hp : ((p : ℕ) : ℤ) = ((i.val : ℤ) + offset) % (n : ℤ)) :
    emitRing hw offset cols p = cols i := by
  have hnpos : (0 : ℤ) < (n : ℤ) := by
    have := i.isLt
    exact_mod_cast Nat.pos_of_ne_zero (by omega)
  rw [emitRing]
  refine emitRing_fold_mem offset cols i p ?_ (List.finRange n) hw
    (List.mem_finRange i) (List.nodup_finRange n)
  intro j
  rw [emitRing_body_key offset hoff hn j]
  constructor
  · intro hk
    have h0 : (0 : ℤ) ≤ ((j.val : ℤ) + offset) % (n : ℤ) := Int.emod_nonneg _ (by omega)
    have hj' : ((j.val : ℤ) + offset) % (n : ℤ) = ((i.val : ℤ) + offset) % (n : ℤ) := by
      omega
    have hdvd : (n : ℤ) ∣ ((i.val : ℤ) + offset) - ((j.val : ℤ) + offset) :=
      Int.ModEq.dvd hj'
    have hzero : ((i.val : ℤ) + offset) - ((j.val : ℤ) + offset) = 0 := by
      refine Int.eq_zero_of_abs_lt_dvd hdvd ?_
      have hj1 : (j.val : ℤ) < (n : ℤ) := by exact_mod_cast j.isLt
      have hi1 : (i.val : ℤ) < (n : ℤ) := by exact_mod_cast i.isLt
      rw [abs_lt]
      constructor <;> omega
    refine Fin.ext ?_
    omega
  · intro hj
    subst hj
    omega

theorem setPixelOuterRing_in_range {pixel : ℕ} (hpix : pixel < OUTER_RING_LED_COUNT)
    (color : ℕ) (s : LEDRings) :
    setPixelOuterRing pixel color s =
      { s with targetOuterring := upd s.targetOuterring ⟨pixel, hpix⟩ (color % 4294967296) } := by
  rw [setPixelOuterRing, dif_neg (Nat.not_le.mpr hpix)]

theorem setPixelInnerRing_in_range {pixel : ℕ} (hpix : pixel < INNER_RING_LED_COUNT)
    (color : ℕ) (s : LEDRings) :
    setPixelInnerRing pixel color s =
      { s with targetInnerRing := upd s.targetInnerRing ⟨pixel, hpix⟩ (color % 4294967296) } := by
  rw [setPixelInnerRing, dif_neg (Nat.not_le.mpr hpix)]

theorem setPixelOuterRing_out_of_range {pixel : ℕ} (hpix : OUTER_RING_LED_COUNT ≤ pixel)
    (color : ℕ) (s : LEDRings) :
    setPixelOuterRing pixel color s = { s with log := s.log ++ ["ERROR: pixel out of range"] } := by
  rw [setPixelOuterRing, dif_pos hpix]

theorem setPixelInnerRing_out_of_range {pixel : ℕ} (hpix : INNER_RING_LED_COUNT ≤ pixel)
    (color : ℕ) (s : LEDRings) :
    setPixelInnerRing pixel color s = { s with log := s.log ++ ["ERROR: pixel out of range"] } := by
  rw [setPixelInnerRing, dif_pos hpix]

theorem foldl_upd_ne {n : ℕ} (body : Fin n → ℕ) (j : Fin n) :
    ∀ (l : List (Fin n)) (f : Fin n → ℕ), (∀ i ∈ l, i ≠ j) →
      (l.foldl (fun f i => upd f i (body i)) f) j = f j := by
  intro l
  induction l with
  | nil => intro f _; rfl
  | cons a l ih =>
      intro f h
      rw [List.foldl_cons, ih _ (fun b hb => h b (List.mem_cons_of_mem _ hb)), upd,
        if_neg (fun hc => (h a (List.mem_cons_self _ _)) hc.symm)]

theorem foldl_upd_apply {n : ℕ} (body : Fin n → ℕ) (j : Fin n) :
    ∀ (l : List (Fin n)) (f : Fin n → ℕ), j ∈ l → l.Nodup →
      (l.foldl (fun f i => upd f i (body i)) f) j = body j := by
  intro l
  induction l with
  | nil => intro f h _; exact absurd h (List.not_mem_nil _)
  | cons a l ih =>
      intro f hmem hnd
      rcases List.mem_cons.mp hmem with rfl | hmem'
      · rw [List.foldl_cons,
          foldl_upd_ne body j l _ (fun b hb hc => (List.nodup_cons.mp hnd).1 (hc ▸ hb)),
          upd, if_pos rfl]
      · exact ih _ hmem' (List.nodup_cons.mp hnd).2

theorem showMinutes_fold_target (minutes t colorMinutes colorSeconds : ℕ) :
    ∀ (l : List (Fin OUTER_RING_LED_COUNT)) (s : LEDRings),
      (l.foldl (fun st (i : Fin OUTER_RING_LED_COUNT) =>
          setPixelOuterRing i.val (showMinutesPixel minutes t colorMinutes colorSeconds (i.val : ℤ)) st) s).targetOuterring
        = l.foldl (fun f i =>
            upd f i (showMinutesPixel minutes t colorMinutes colorSeconds (i.val : ℤ) % 4294967296)) s.targetOuterring := by
  intro l
  induction l with
  | nil => intro s; rfl
  | cons a l ih =>
      intro s
      rw [List.foldl_cons, List.foldl_cons, ih, setPixelOuterRing_in_range a.isLt]

theorem showMinutes_target (minutes t colorMinutes colorSeconds : ℕ) (s : LEDRings)
    (i : Fin OUTER_RING_LED_COUNT) :
    (showMinutes minutes t colorMinutes colorSeconds s).targetOuterring i
      = showMinutesPixel minutes t colorMinutes colorSeconds (i.val : ℤ) % 4294967296 := by
  rw [showMinutes, showMinutes_fold_target]
  exact foldl_upd_apply _ i (List.finRange _) _ (List.mem_finRange i) (List.nodup_finRange _)

/-- C2: for channels `r`, `g`, `b` in `[0,255]` and brightness `B` in
`[0,255]`, `calcEstimatedLEDCurrent` is bit-exact with the formula
`20*(r+g+b)/255*B/255` under integer truncating division. -/
theorem calcEstimatedLEDCurrent_formula (r g b B : ℕ) (hr : r ≤ 255) (hg : g ≤ 255)
    (hb : b ≤ 255) (hB : B ≤ 255) :
    calcEstimatedLEDCurrent (Color24bit r g b) B = 20 * (r + g + b) / 255 * B / 255 := by
  simp only [calcEstimatedLEDCurrent]
  rw [chan_16_pack, chan_8_pack, chan_0_pack, Nat.mod_eq_of_lt (show r < 256 by omega),
    Nat.mod_eq_of_lt (show g < 256 by omega), Nat.mod_eq_of_lt (show b < 256 by omega)]
  have h1 : 20 * r + 20 * g + 20 * b = 20 * (r + g + b) := by ring
  rw [h1]
  have h2 : 20 * (r + g + b) / 255 * B / 255 < 65536 := by
    have hs : 20 * (r + g + b) ≤ 15300 := by omega
    have d1 : 20 * (r + g + b) / 255 ≤ 60 := by omega
    have d2 : 20 * (r + g + b) / 255 * B ≤ 60 * 255 := Nat.mul_le_mul d1 hB
    omega
  exact Nat.mod_eq_of_lt h2

theorem calcEstimatedLEDCurrent_formula_witness :
    calcEstimatedLEDCurrent (Color24bit 255 255 255) 255 = 20 * (255 + 255 + 255) / 255 * 255 / 255 :=
  calcEstimatedLEDCurrent_formula 255 255 255 255 (by decide) (by decide) (by decide) (by decide)

/-- C5: a single `drawOnRingsInstant` makes every entry of each ring's
`current` buffer equal to the corresponding `target` entry, for every
prior state whose target colors are 24-bit values. -/
theorem drawOnRingsInstant_current_eq_target (s : LEDRings)
    (hO : ∀ i, s.targetOuterring i < 16777216)
    (hI : ∀ i, s.targetInnerRing i < 16777216) :
    (∀ i, (drawOnRingsInstant s).currentOuterRing i = s.targetOuterring i) ∧
    (∀ i, (drawOnRingsInstant s).currentInnerRing i = s.targetInnerRing i) := by
  constructor <;> intro i
  · show newColorsOuter 1 s i = _
    simp only [newColorsOuter]
    exact interpolate_factor_one (hO i)
  · show newColorsInner 1 s i = _
    simp only [newColorsInner]
    exact interpolate_factor_one (hI i)

theorem drawOnRingsInstant_current_eq_target_witness :
    (∀ i, (drawOnRingsInstant initState).currentOuterRing i = initState.targetOuterring i) ∧
    (∀ i, (drawOnRingsInstant initState).currentInnerRing i = initState.targetInnerRing i) :=
  drawOnRingsInstant_current_eq_target initState
    (fun _ => by show (0 : ℕ) < 16777216; decide)
    (fun _ => by show (0 : ℕ) < 16777216; decide)

/-- C8: `setPixelOuterRing` / `setPixelInnerRing` with an out-of-range
index leave the target buffer unchanged and log an error; with an
in-range index they write exactly `target[index] = color` and change no
other entry (and log nothing). -/
theorem setPixel_range_check (pixel color : ℕ) (s : LEDRings) :
    (OUTER_RING_LED_COUNT ≤ pixel →
      (∀ j, (setPixelOuterRing pixel color s).targetOuterring j = s.targetOuterring j) ∧
      (setPixelOuterRing pixel color s).log = s.log ++ ["ERROR: pixel out of range"]) ∧
    (pixel < OUTER_RING_LED_COUNT → color < 4294967296 →
      ((∀ j : Fin OUTER_RING_LED_COUNT,
        (setPixelOuterRing pixel color s).targetOuterring j
          = if (j : ℕ) = pixel then color else s.targetOuterring j) ∧
      (setPixelOuterRing pixel color s).log = s.log)) ∧
    (INNER_RING_LED_COUNT ≤ pixel →
      (∀ j, (setPixelInnerRing pixel color s).targetInnerRing j = s.targetInnerRing j) ∧
      (setPixelInnerRing pixel color s).log = s.log ++ ["ERROR: pixel out of range"]) ∧
    (pixel < INNER_RING_LED_COUNT → color < 4294967296 →
      ((∀ j : Fin INNER_RING_LED_COUNT,
        (setPixelInnerRing pixel color s).targetInnerRing j
          = if (j : ℕ) = pixel then color else s.targetInnerRing j) ∧
      (setPixelInnerRing pixel color s).log = s.log)) := by
  refine ⟨fun h => ?_, fun h hc => ?_, fun h => ?_, fun h hc => ?_⟩
  · rw [setPixelOuterRing_out_of_range h]
    exact ⟨fun j => rfl, rfl⟩
  · rw [setPixelOuterRing_in_range h]
    refine ⟨fun j => ?_, rfl⟩
    simp only [upd, Fin.ext_iff]
    rw [Nat.mod_eq_of_lt hc]
  · rw [setPixelInnerRing_out_of_range h]
    exact ⟨fun j => rfl, rfl⟩
  · rw [setPixelInnerRing_in_range h]
    refine ⟨fun j => ?_, rfl⟩
    simp only [upd, Fin.ext_iff]
    rw [Nat.mod_eq_of_lt hc]

theorem setPixel_range_check_witness :
    (setPixelOuterRing 100 5 initState).log = initState.log ++ ["ERROR: pixel out of range"] ∧
    (∀ j : Fin OUTER_RING_LED_COUNT,
      (setPixelOuterRing 3 7 initState).targetOuterring j
        = if (j : ℕ) = 3 then 7 else initState.targetOuterring j) :=
  ⟨((setPixel_range_check 100 5 initState).1 (by decide)).2,
    (((setPixel_range_check 3 7 initState).2.1 (by decide) (by decide)).1)⟩

/-- C9: `showHour 0 color` computes the `uint16_t` index 65535 (the
`int` value `hour - 1 = -1` converted), which the range check rejects
and logs, so after the flush the inner-ring target stays entirely
black. -/
theorem showHour_zero_black (color : ℕ) (s : LEDRings) :
    showHourIndex 0 = 65535 ∧
    (∀ j, (showHour 0 color s).targetInnerRing j = 0) ∧
    (showHour 0 color s).log = s.log ++ ["ERROR: pixel out of range"] := by
  have hidx : showHourIndex 0 = 65535 := by decide
  refine ⟨hidx, ?_, ?_⟩ <;>
    rw [showHour, hidx, setPixelInnerRing_out_of_range (by decide)]
  · exact fun j => rfl
  · rfl

theorem showHourIndex_of_pos {hour : ℕ} (h1 : 1 ≤ hour) (h2 : hour ≤ 24) :
    showHourIndex hour = (if 12 < hour then hour - 12 else hour) - 1 := by
  rw [showHourIndex]
  split <;> omega

/-- C6: for `hour` in 1..12, `showHour` flushes the inner ring and lights
exactly the pixel at logical index `hour - 1`; for `hour` in 13..24 it
lights the index of `hour - 12`, i.e. `hour - 13`. -/
theorem showHour_single_pixel (hour color : ℕ) (s : LEDRings)
    (h1 : 1 ≤ hour) (h2 : hour ≤ 24) (hc : color < 4294967296) :
    ((if 12 < hour then hour - 12 else hour) - 1 < INNER_RING_LED_COUNT) ∧
    (∀ j : Fin INNER_RING_LED_COUNT,
      (showHour hour color s).targetInnerRing j
        = if (j : ℕ) = (if 12 < hour then hour - 12 else hour) - 1 then color else 0) ∧
    (13 ≤ hour → (if 12 < hour then hour - 12 else hour) - 1 = hour - 13) := by
  have hidx : (if 12 < hour then hour - 12 else hour) - 1 < INNER_RING_LED_COUNT := by
    rw [INNER_RING_LED_COUNT]
    split <;> omega
  refine ⟨hidx, fun j => ?_, fun h13 => ?_⟩
  · rw [showHour, showHourIndex_of_pos h1 h2, setPixelInnerRing_in_range hidx]
    simp only [upd, Fin.ext_iff, flushInnerRing]
    rw [Nat.mod_eq_of_lt hc]
  · split <;> omega

theorem showHour_single_pixel_witness :
    (∀ j : Fin INNER_RING_LED_COUNT,
      (showHour 15 9 initState).targetInnerRing j = if (j : ℕ) = (if 12 < 15 then 15 - 12 else 15) - 1 then 9 else 0) ∧
    ((if 12 < 15 then 15 - 12 else 15) - 1 = 15 - 13) :=
  ⟨(showHour_single_pixel 15 9 initState (by decide) (by decide) (by decide)).2.1,
    (showHour_single_pixel 15 9 initState (by decide) (by decide) (by decide)).2.2 (by decide)⟩

/-- C3: after `showMinutes`, the outer-ring target holds, at each logical
index `i`: the comet tail at `activePixelSeconds - 1`, the comet head at
`activePixelSeconds` (both taking priority over the minute arc), solid
`colorMinutes` below `activePixelMinutes`, the blended boundary pixel at
`activePixelMinutes`, and black above it. -/
theorem showMinutes_pixels (minutes t colorMinutes colorSeconds : ℕ) (s : LEDRings)
    (hm : minutes ≤ 59) (ht : t < 60000) (hcm : colorMinutes < 4294967296)
    (i : Fin OUTER_RING_LED_COUNT) :
    (showMinutes minutes t colorMinutes colorSeconds s).targetOuterring i =
      if (i.val : ℤ) = activePixelSeconds t - 1 then
        interpolateColor24bit (Color24bit 0 0 0) colorSeconds (1 - pixelProgressSeconds t)
      else if (i.val : ℤ) = activePixelSeconds t then
        interpolateColor24bit (Color24bit 0 0 0) colorSeconds (pixelProgressSeconds t)
      else if (i.val : ℤ) < activePixelMinutes minutes t then colorMinutes
      else if (i.val : ℤ) = activePixelMinutes minutes t then
        interpolateColor24bit (Color24bit 0 0 0) colorMinutes (pixelProgressMinutes minutes t)
      else Color24bit 0 0 0 := by
  rw [showMinutes_target, showMinutesPixel]
  have hinterp : ∀ c1 c2 : ℕ, ∀ f : ℚ, interpolateColor24bit c1 c2 f < 4294967296 := by
    intro c1 c2 f
    have := Color24bit_lt (interpChannel (chan 16 c1) (chan 16 c2) f)
      (interpChannel (chan 8 c1) (chan 8 c2) f) (interpChannel (chan 0 c1) (chan 0 c2) f)
    rw [interpolateColor24bit]
    omega
  have hblack : Color24bit 0 0 0 < 4294967296 := by
    have := Color24bit_lt 0 0 0
    omega
  split_ifs <;> rw [Nat.mod_eq_of_lt]
  · exact hinterp _ _ _
  · exact hinterp _ _ _
  · exact hcm
  · exact hinterp _ _ _
  · exact hblack

theorem showMinutes_pixels_witness :
    (showMinutes 10 30000 3 5 initState).targetOuterring ⟨0, by decide⟩ =
      if ((0 : ℕ) : ℤ) = activePixelSeconds 30000 - 1 then
        interpolateColor24bit (Color24bit 0 0 0) 5 (1 - pixelProgressSeconds 30000)
      else if ((0 : ℕ) : ℤ) = activePixelSeconds 30000 then
        interpolateColor24bit (Color24bit 0 0 0) 5 (pixelProgressSeconds 30000)
      else if ((0 : ℕ) : ℤ) < activePixelMinutes 10 30000 then 3
      else if ((0 : ℕ) : ℤ) = activePixelMinutes 10 30000 then
        interpolateColor24bit (Color24bit 0 0 0) 3 (pixelProgressMinutes 10 30000)
      else Color24bit 0 0 0 :=
  showMinutes_pixels 10 30000 3 5 initState (by decide) (by decide) (by decide) ⟨0, by decide⟩

theorem chan_interpolate_cases {k : ℕ} (hk : k = 0 ∨ k = 8 ∨ k = 16) (c1 c2 : ℕ) (f : ℚ) :
    chan k (interpolateColor24bit c1 c2 f) = interpChannel (chan k c1) (chan k c2) f := by
  rcases hk with rfl | rfl | rfl
  · exact chan_0_interpolate c1 c2 f
  · exact chan_8_interpolate c1 c2 f
  · exact chan_16_interpolate c1 c2 f

/-- C4 (amended): for a fixed target and blend factor `f` in `(0,1]`,
one `drawOnRingsSmooth(f)` call moves every current pixel channel to a
value between its old value and the target channel (never overshooting),
the channel-wise distance to the target never increases, and it strictly
decreases whenever `distance * f ≥ 1`; integer truncation can stall the
approach at a nonzero distance, so strict decrease on every call down to
zero does not hold. -/
theorem drawOnRingsSmooth_monotone (f : ℚ) (s : LEDRings) (hf0 : 0 < f) (hf1 : f ≤ 1)
    (k : ℕ) (hk : k = 0 ∨ k = 8 ∨ k = 16) :
    (∀ i : Fin OUTER_RING_LED_COUNT,
      (min (chan k (s.currentOuterRing i)) (chan k (s.targetOuterring i))
          ≤ chan k ((drawOnRingsSmooth f s).currentOuterRing i) ∧
        chan k ((drawOnRingsSmooth f s).currentOuterRing i)
          ≤ max (chan k (s.currentOuterRing i)) (chan k (s.targetOuterring i))) ∧
      Nat.dist (chan k ((drawOnRingsSmooth f s).currentOuterRing i)) (chan k (s.targetOuterring i))
        ≤ Nat.dist (chan k (s.currentOuterRing i)) (chan k (s.targetOuterring i)) ∧
      (1 ≤ (Nat.dist (chan k (s.currentOuterRing i)) (chan k (s.targetOuterring i)) : ℚ) * f →
        Nat.dist (chan k ((drawOnRingsSmooth f s).currentOuterRing i)) (chan k (s.targetOuterring i))
          < Nat.dist (chan k (s.currentOuterRing i)) (chan k (s.targetOuterring i)))) ∧
    (∀ i : Fin INNER_RING_LED_COUNT,
      (min (chan k (s.currentInnerRing i)) (chan k (s.targetInnerRing i))
          ≤ chan k ((drawOnRingsSmooth f s).currentInnerRing i) ∧
        chan k ((drawOnRingsSmooth f s).currentInnerRing i)
          ≤ max (chan k (s.currentInnerRing i)) (chan k (s.targetInnerRing i))) ∧
      Nat.dist (chan k ((drawOnRingsSmooth f s).currentInnerRing i)) (chan k (s.targetInnerRing i))
        ≤ Nat.dist (chan k (s.currentInnerRing i)) (chan k (s.targetInnerRing i)) ∧
      (1 ≤ (Nat.dist (chan k (s.currentInnerRing i)) (chan k (s.targetInnerRing i)) : ℚ) * f →
        Nat.dist (chan k ((drawOnRingsSmooth f s).currentInnerRing i)) (chan k (s.targetInnerRing i))
          < Nat.dist (chan k (s.currentInnerRing i)) (chan k (s.targetInnerRing i)))) := by
  constructor <;> intro i
  · have hc : (drawOnRingsSmooth f s).currentOuterRing i
        = interpolateColor24bit (s.currentOuterRing i) (s.targetOuterring i) f := rfl
    rw [hc, chan_interpolate_cases hk]
    exact interpChannel_between (chan_le k _) (chan_le k _) hf0 hf1
  · have hc : (drawOnRingsSmooth f s).currentInnerRing i
        = interpolateColor24bit (s.currentInnerRing i) (s.targetInnerRing i) f := rfl
    rw [hc, chan_interpolate_cases hk]
    exact interpChannel_between (chan_le k _) (chan_le k _) hf0 hf1

theorem drawOnRingsSmooth_monotone_witness :
    (∀ i : Fin OUTER_RING_LED_COUNT,
      (min (chan 0 (initState.currentOuterRing i)) (chan 0 (initState.targetOuterring i))
          ≤ chan 0 ((drawOnRingsSmooth 1 initState).currentOuterRing i) ∧
        chan 0 ((drawOnRingsSmooth 1 initState).currentOuterRing i)
          ≤ max (chan 0 (initState.currentOuterRing i)) (chan 0 (initState.targetOuterring i))) ∧
      Nat.dist (chan 0 ((drawOnRingsSmooth 1 initState).currentOuterRing i)) (chan 0 (initState.targetOuterring i))
        ≤ Nat.dist (chan 0 (initState.currentOuterRing i)) (chan 0 (initState.targetOuterring i)) ∧
      (1 ≤ (Nat.dist (chan 0 (initState.currentOuterRing i)) (chan 0 (initState.targetOuterring i)) : ℚ) * 1 →
        Nat.dist (chan 0 ((drawOnRingsSmooth 1 initState).currentOuterRing i)) (chan 0 (initState.targetOuterring i))
          < Nat.dist (chan 0 (initState.currentOuterRing i)) (chan 0 (initState.targetOuterring i)))) ∧
    (∀ i : Fin INNER_RING_LED_COUNT,
      (min (chan 0 (initState.currentInnerRing i)) (chan 0 (initState.targetInnerRing i))
          ≤ chan 0 ((drawOnRingsSmooth 1 initState).currentInnerRing i) ∧
        chan 0 ((drawOnRingsSmooth 1 initState).currentInnerRing i)
          ≤ max (chan 0 (initState.currentInnerRing i)) (chan 0 (initState.targetInnerRing i))) ∧
      Nat.dist (chan 0 ((drawOnRingsSmooth 1 initState).currentInnerRing i)) (chan 0 (initState.targetInnerRing i))
        ≤ Nat.dist (chan 0 (initState.currentInnerRing i)) (chan 0 (initState.targetInnerRing i)) ∧
      (1 ≤ (Nat.dist (chan 0 (initState.currentInnerRing i)) (chan 0 (initState.targetInnerRing i)) : ℚ) * 1 →
        Nat.dist (chan 0 ((drawOnRingsSmooth 1 initState).currentInnerRing i)) (chan 0 (initState.targetInnerRing i))
          < Nat.dist (chan 0 (initState.currentInnerRing i)) (chan 0 (initState.targetInnerRing i)))) :=
  drawOnRingsSmooth_monotone 1 initState zero_lt_one (le_refl 1) 0 (Or.inl rfl)

/-- State used to exhibit the truncation stall: logical outer pixel 0 has
target color 1 (blue channel 1) while the current buffer holds 0. -/
def stallState : LEDRings := setPixelOuterRing 0 1 initState

/-- C4 counterexample: with target channel 1, current channel 0 and
factor 1/2 (inside `(0,1)`), a `drawOnRingsSmooth` call leaves the
current channel at 0 — the channel-wise distance does not strictly
decrease and never reaches zero. -/
theorem drawOnRingsSmooth_stall :
    stallState.currentOuterRing ⟨0, by decide⟩ = 0 ∧
    stallState.targetOuterring ⟨0, by decide⟩ = 1 ∧
    (drawOnRingsSmooth (1 / 2) stallState).currentOuterRing ⟨0, by decide⟩ = 0 ∧
    ¬ Nat.dist (chan 0 ((drawOnRingsSmooth (1 / 2) stallState).currentOuterRing ⟨0, by decide⟩))
        (chan 0 (stallState.targetOuterring ⟨0, by decide⟩))
      < Nat.dist (chan 0 (stallState.currentOuterRing ⟨0, by decide⟩))
        (chan 0 (stallState.targetOuterring ⟨0, by decide⟩)) := by
  with_unfolding_all exact of_decide_eq_true rfl

/-- C7 (amended): for offsets no more negative than the ring length,
setting a logical pixel and drawing instantly delivers the color to the
physical pixel `(i + offset) mod length` (mathematical modulus), for
both rings.  (For offsets below `-length` the C index computation goes
negative and the hardware write is dropped.) -/
theorem setPixel_offset_physical (color : ℕ) (s : LEDRings) (hc : color < 16777216) :
    (∀ i : Fin OUTER_RING_LED_COUNT, -(OUTER_RING_LED_COUNT : ℤ) ≤ s.offsetOuterRing →
      ∀ p : Fin OUTER_RING_LED_COUNT,
        ((p : ℕ) : ℤ) = ((i.val : ℤ) + s.offsetOuterRing) % (OUTER_RING_LED_COUNT : ℤ) →
        (drawOnRingsInstant (setPixelOuterRing i.val color s)).hwOuter p = color) ∧
    (∀ i : Fin INNER_RING_LED_COUNT, -(INNER_RING_LED_COUNT : ℤ) ≤ s.offsetInnerRing →
      ∀ p : Fin INNER_RING_LED_COUNT,
        ((p : ℕ) : ℤ) = ((i.val : ℤ) + s.offsetInnerRing) % (INNER_RING_LED_COUNT : ℤ) →
        (drawOnRingsInstant (setPixelInnerRing i.val color s)).hwInner p = color) := by
  constructor
  · intro i hoff p hp
    rw [setPixelOuterRing_in_range i.isLt]
    set s1 : LEDRings :=
      { s with targetOuterring := upd s.targetOuterring ⟨i.val, i.isLt⟩ (color % 4294967296) } with hs1
    have hdraw : (drawOnRingsInstant s1).hwOuter
        = emitRing s1.hwOuter s1.offsetOuterRing (newColorsOuter 1 s1) := rfl
    rw [hdraw]
    rw [emitRing_apply s1.hwOuter s1.offsetOuterRing (newColorsOuter 1 s1) hoff (by decide) i p hp]
    show interpolateColor24bit (s.currentOuterRing i) (upd s.targetOuterring ⟨i.val, i.isLt⟩ (color % 4294967296) i) 1 = color
    rw [upd, if_pos rfl, Nat.mod_eq_of_lt (by omega)]
    exact interpolate_factor_one hc
  · intro i hoff p hp
    rw [setPixelInnerRing_in_range i.isLt]
    set s1 : LEDRings :=
      { s with targetInnerRing := upd s.targetInnerRing ⟨i.val, i.isLt⟩ (color % 4294967296) } with hs1
    have hdraw : (drawOnRingsInstant s1).hwInner
        = emitRing s1.hwInner s1.offsetInnerRing (newColorsInner 1 s1) := rfl
    rw [hdraw]
    rw [emitRing_apply s1.hwInner s1.offsetInnerRing (newColorsInner 1 s1) hoff (by decide) i p hp]
    show interpolateColor24bit (s.currentInnerRing i) (upd s.targetInnerRing ⟨i.val, i.isLt⟩ (color % 4294967296) i) 1 = color
    rw [upd, if_pos rfl, Nat.mod_eq_of_lt (by omega)]
    exact interpolate_factor_one hc

theorem setPixel_offset_physical_witness :
    (drawOnRingsInstant (setPixelOuterRing (0 : ℕ) 7 initState)).hwOuter ⟨86, by decide⟩ = 7 :=
  (setPixel_offset_physical 7 initState (by decide)).1 ⟨0, by decide⟩ (by decide)
    ⟨86, by decide⟩ (by decide)

/-- State with outer offset −200 (beyond −length), logical outer pixel 0
set to color 1. -/
def misoffsetState : LEDRings := setPixelOuterRing 0 1 (setOffsets (-200) 0 initState)

/-- C7 counterexample: with stored offset −200, after setting logical
pixel 0 and drawing instantly, the physical pixel `(0 + (−200)) mod 91 =
73` does not receive the color: the C expression
`(91 + 0 + (−200)) % 91` is negative, so the driver drops the write. -/
theorem setPixel_offset_counterexample :
    ((((0 : ℤ) + (-200)) % (91 : ℤ)).toNat = 73) ∧
    misoffsetState.offsetOuterRing = -200 ∧
    misoffsetState.targetOuterring ⟨0, by decide⟩ = 1 ∧
    (drawOnRingsInstant misoffsetState).hwOuter ⟨73, by decide⟩ ≠ 1 := by
  with_unfolding_all exact of_decide_eq_true rfl

theorem truncBrightness_le {b l t : ℕ} (hlt : l < t) :
    (truncQ ((b : ℚ) * (l : ℚ) / (t : ℚ))).toNat ≤ b := by
  have ht0 : (0 : ℚ) < (t : ℚ) := by
    exact_mod_cast Nat.pos_of_ne_zero (by omega)
  have h0 : (0 : ℚ) ≤ (b : ℚ) * (l : ℚ) / (t : ℚ) := by positivity
  rw [truncQ_of_nonneg h0]
  have hle : (b : ℚ) * (l : ℚ) / (t : ℚ) ≤ (b : ℚ) := by
    rw [div_le_iff₀ ht0]
    have hl : (l : ℚ) ≤ (t : ℚ) := by exact_mod_cast hlt.le
    nlinarith [Nat.cast_nonneg (α := ℚ) b]
  have hfl : ⌊(b : ℚ) * (l : ℚ) / (t : ℚ)⌋ ≤ (b : ℤ) := by
    have := Int.floor_mono hle
    rwa [Int.floor_natCast] at this
  omega

/-- C1: every frame recomputes the current estimate; when it exceeds the
limit, the brightness handed to each ring's driver is the stored
brightness scaled by the same global ratio `limit / totalCurrent`
(truncated to an integer), otherwise it is the stored brightness; the
emitted brightness never exceeds the stored one, and the stored
brightness fields read back unchanged. -/
theorem drawOnRings_brightness_throttle (f : ℚ) (s : LEDRings)
    (hbO : s.brightnessOuterRing ≤ 255) (hbI : s.brightnessInnerRing ≤ 255) :
    ((drawOnRings f s).hwBrightnessOuter =
      if s.currentLimit < totalCurrentAfter f s then
        (truncQ (((s.brightnessOuterRing : ℚ) * (s.currentLimit : ℚ)) / (totalCurrentAfter f s : ℚ))).toNat
      else s.brightnessOuterRing) ∧
    ((drawOnRings f s).hwBrightnessInner =
      if s.currentLimit < totalCurrentAfter f s then
        (truncQ (((s.brightnessInnerRing : ℚ) * (s.currentLimit : ℚ)) / (totalCurrentAfter f s : ℚ))).toNat
      else s.brightnessInnerRing) ∧
    (drawOnRings f s).hwBrightnessOuter ≤ s.brightnessOuterRing ∧
    (drawOnRings f s).hwBrightnessInner ≤ s.brightnessInnerRing ∧
    getBrightnessOuterRing (drawOnRings f s) = getBrightnessOuterRing s ∧
    getBrightnessInnerRing (drawOnRings f s) = getBrightnessInnerRing s := by
  have eO : (drawOnRings f s).hwBrightnessOuter =
      if s.currentLimit < totalCurrentAfter f s then
        (truncQ (((s.brightnessOuterRing : ℚ) * (s.currentLimit : ℚ)) / (totalCurrentAfter f s : ℚ))).toNat % 256
      else s.brightnessOuterRing := rfl
  have eI : (drawOnRings f s).hwBrightnessInner =
      if s.currentLimit < totalCurrentAfter f s then
        (truncQ (((s.brightnessInnerRing : ℚ) * (s.currentLimit : ℚ)) / (totalCurrentAfter f s : ℚ))).toNat % 256
      else s.brightnessInnerRing := rfl
  rcases lt_or_ge s.currentLimit (totalCurrentAfter f s) with h | h
  · have hOle := truncBrightness_le (b := s.brightnessOuterRing)
      (l := s.currentLimit) (t := totalCurrentAfter f s) h
    have hIle := truncBrightness_le (b := s.brightnessInnerRing)
      (l := s.currentLimit) (t := totalCurrentAfter f s) h
    rw [eO, eI, if_pos h, if_pos h, if_pos h, if_pos h,
      Nat.mod_eq_of_lt (by omega), Nat.mod_eq_of_lt (by omega)]
    exact ⟨rfl, rfl, hOle, hIle, rfl, rfl⟩
  · rw [eO, eI, if_neg (Nat.not_lt.mpr h), if_neg (Nat.not_lt.mpr h),
      if_neg (Nat.not_lt.mpr h), if_neg (Nat.not_lt.mpr h)]
    exact ⟨rfl, rfl, le_refl _, le_refl _, rfl, rfl⟩

theorem drawOnRings_brightness_throttle_witness :
    ((drawOnRings 1 initState).hwBrightnessOuter =
      if initState.currentLimit < totalCurrentAfter 1 initState then
        (truncQ (((initState.brightnessOuterRing : ℚ) * (initState.currentLimit : ℚ)) / (totalCurrentAfter 1 initState : ℚ))).toNat
      else initState.brightnessOuterRing) ∧
    ((drawOnRings 1 initState).hwBrightnessInner =
      if initState.currentLimit < totalCurrentAfter 1 initState then
        (truncQ (((initState.brightnessInnerRing : ℚ) * (initState.currentLimit : ℚ)) / (totalCurrentAfter 1 initState : ℚ))).toNat
      else initState.brightnessInnerRing) ∧
    (drawOnRings 1 initState).hwBrightnessOuter ≤ initState.brightnessOuterRing ∧
    (drawOnRings 1 initState).hwBrightnessInner ≤ initState.brightnessInnerRing ∧
    getBrightnessOuterRing (drawOnRings 1 initState) = getBrightnessOuterRing initState ∧
    getBrightnessInnerRing (drawOnRings 1 initState) = getBrightnessInnerRing initState :=
  drawOnRings_brightness_throttle 1 initState (by decide) (by decide)

theorem calcEstimatedLEDCurrent_le (c b : ℕ) (hb : b ≤ 255) :
    calcEstimatedLEDCurrent c b ≤ 60 := by
  simp only [calcEstimatedLEDCurrent]
  have hr := chan_le 16 c
  have hg := chan_le 8 c
  have hbl := chan_le 0 c
  have d1 : (20 * chan 16 c + 20 * chan 8 c + 20 * chan 0 c) / 255 ≤ 60 := by omega
  have d2 : (20 * chan 16 c + 20 * chan 8 c + 20 * chan 0 c) / 255 * b ≤ 60 * 255 :=
    Nat.mul_le_mul d1 hb
  omega

theorem foldl_add_mod {α : Type} (g : α → ℕ) (hg : ∀ a, g a ≤ 60) :
    ∀ (l : List α) (a0 : ℕ), a0 + 60 * l.length < 65536 →
      l.foldl (fun acc x => (acc + g x) % 65536) a0 = l.foldl (fun acc x => acc + g x) a0 ∧
      l.foldl (fun acc x => acc + g x) a0 ≤ a0 + 60 * l.length := by
  intro l
  induction l with
  | nil => intro a0 h; exact ⟨rfl, by simp⟩
  | cons x l ih =>
      intro a0 h
      rw [List.length_cons] at h
      have hx := hg x
      have h1 : (a0 + g x) % 65536 = a0 + g x := Nat.mod_eq_of_lt (by omega)
      rw [List.foldl_cons, List.foldl_cons, h1]
      have h2 := ih (a0 + g x) (by omega)
      refine ⟨h2.1, ?_⟩
      have h3 := h2.2
      rw [List.length_cons]
      omega

theorem totalCurrentRing_nowrap {n : ℕ} (cols : Fin n → ℕ) (b : ℕ) (hb : b ≤ 255)
    (hn : 60 * n < 65536) :
    totalCurrentRing cols b
      = (List.finRange n).foldl (fun acc i => acc + calcEstimatedLEDCurrent (cols i) b) 0 ∧
    totalCurrentRing cols b ≤ 60 * n := by
  have h := foldl_add_mod (fun i => calcEstimatedLEDCurrent (cols i) b)
    (fun i => calcEstimatedLEDCurrent_le _ _ hb) (List.finRange n) 0
    (by rw [List.length_finRange]; omega)
  rw [totalCurrentRing]
  refine ⟨h.1, ?_⟩
  rw [h.1]
  have h2 := h.2
  rw [List.length_finRange] at h2
  omega

/-- C10: the total estimated current in `drawOnRings` is the plain sum of
the per-ring accumulations (no `uint16_t` wrap occurs), is at most
6180 mA, and with the default current limit 9999 the throttling branch
is unreachable: both drivers receive the stored brightness. -/
theorem totalCurrent_bounded (f : ℚ) (s : LEDRings)
    (hbO : s.brightnessOuterRing ≤ 255) (hbI : s.brightnessInnerRing ≤ 255) :
    totalCurrentAfter f s
      = totalCurrentRing (newColorsOuter f s) s.brightnessOuterRing
        + totalCurrentRing (newColorsInner f s) s.brightnessInnerRing ∧
    totalCurrentRing (newColorsOuter f s) s.brightnessOuterRing
      = (List.finRange OUTER_RING_LED_COUNT).foldl
          (fun acc i => acc + calcEstimatedLEDCurrent (newColorsOuter f s i) s.brightnessOuterRing) 0 ∧
    totalCurrentRing (newColorsInner f s) s.brightnessInnerRing
      = (List.finRange INNER_RING_LED_COUNT).foldl
          (fun acc i => acc + calcEstimatedLEDCurrent (newColorsInner f s i) s.brightnessInnerRing) 0 ∧
    totalCurrentAfter f s ≤ 6180 ∧
    (s.currentLimit = 9999 →
      (drawOnRings f s).hwBrightnessOuter = s.brightnessOuterRing ∧
      (drawOnRings f s).hwBrightnessInner = s.brightnessInnerRing) := by
  have hO := totalCurrentRing_nowrap (newColorsOuter f s) s.brightnessOuterRing hbO (by decide)
  have hI := totalCurrentRing_nowrap (newColorsInner f s) s.brightnessInnerRing hbI (by decide)
  have hOb : totalCurrentRing (newColorsOuter f s) s.brightnessOuterRing ≤ 5460 := hO.2
  have hIb : totalCurrentRing (newColorsInner f s) s.brightnessInnerRing ≤ 720 := hI.2
  have hsum : totalCurrentAfter f s
      = totalCurrentRing (newColorsOuter f s) s.brightnessOuterRing
        + totalCurrentRing (newColorsInner f s) s.brightnessInnerRing := by
    rw [totalCurrentAfter]
    exact Nat.mod_eq_of_lt (by omega)
  refine ⟨hsum, hO.1, hI.1, by omega, fun hlimit => ?_⟩
  have hnot : ¬ s.currentLimit < totalCurrentAfter f s := by omega
  have eO : (drawOnRings f s).hwBrightnessOuter =
      if s.currentLimit < totalCurrentAfter f s then
        (truncQ (((s.brightnessOuterRing : ℚ) * (s.currentLimit : ℚ)) / (totalCurrentAfter f s : ℚ))).toNat % 256
      else s.brightnessOuterRing := rfl
  have eI : (drawOnRings f s).hwBrightnessInner =
      if s.currentLimit < totalCurrentAfter f s then
        (truncQ (((s.brightnessInnerRing : ℚ) * (s.currentLimit : ℚ)) / (totalCurrentAfter f s : ℚ))).toNat % 256
      else s.brightnessInnerRing := rfl
  rw [eO, eI, if_neg hnot, if_neg hnot]
  exact ⟨rfl, rfl⟩

theorem totalCurrent_bounded_witness :
    totalCurrentAfter 1 initState
      = totalCurrentRing (newColorsOuter 1 initState) initState.brightnessOuterRing
        + totalCurrentRing (newColorsInner 1 initState) initState.brightnessInnerRing ∧
    totalCurrentAfter 1 initState ≤ 6180 ∧
    (drawOnRings 1 initState).hwBrightnessOuter = initState.brightnessOuterRing :=
  ⟨(totalCurrent_bounded 1 initState (by decide) (by decide)).1,
    (totalCurrent_bounded 1 initState (by decide) (by decide)).2.2.2.1,
    ((totalCurrent_bounded 1 initState (by decide) (by decide)).2.2.2.2 rfl).1⟩
